import Mathlib

/-
Verification of the batched/vectorized environment subsystem of this
repository: the `Sparse` optional-value gym space (`common/spaces/sparse.py`),
its flatten/unflatten, batching and shared-memory codecs, the
`ConvertToFromTensors` wrapper (`common/gym_wrappers/convert_tensors.py` and
`sequoia/common/gym_wrappers/convert_tensors.py`), and the batched environment
controller.  Python code is shallowly embedded: methods become pure Lean
functions, RNG-dependent sampling becomes explicit state passing, Python
`assert` failures become `Except.error`, and floats are modelled as rationals.
-/

namespace SSCL

/-! ## Sparse space sampling model (`common/spaces/sparse.py`, lines 21-60)

The base gym space is abstracted as a deterministic sampler over an explicit
RNG state `S` (gym spaces sample from their own `np_random` generator), and the
Sparse space's own `np_random` generator is abstracted as an RNG over state `R`
producing rationals in place of floats.  A `Sparse` space instance at runtime
is the structural data (base semantics, rng semantics, `none_prob`) together
with a mutable state (`SparseState`). -/

/-- Semantics of a base gym space: `seed` builds an RNG state from a seed,
`sample` draws a value and advances the RNG state, `contains` is membership. -/
structure BaseSpace (V : Type) (S : Type) where
  seedFn : Nat → S
  sampleFn : S → V × S
  containsFn : V → Bool

/-- Semantics of a numpy RandomState: seeding and drawing one number in [0,1)
(modelled as a rational). -/
structure RngModel (R : Type) where
  seedFn : Nat → R
  nextFn : R → ℚ × R

/-- Structural data of a `Sparse(base, none_prob)` space.  Equality of two
Sparse spaces in the source (`Sparse.__eq__`, lines 57-60) is structural:
same base space and same `none_prob`; two structurally equal spaces share the
same `Sparse` value here and differ only in their `SparseState`. -/
structure Sparse (V S R : Type) where
  base : BaseSpace V S
  rng : RngModel R
  none_prob : ℚ

/-- Runtime random state of one `Sparse` space instance: its own `np_random`
state plus the base space's RNG state. -/
structure SparseState (S R : Type) where
  npRandom : R
  baseState : S

/-- Embeds `Sparse.seed` (lines 32-34): `super().seed(seed)` reseeds the
space's own `np_random`, then `self.base.seed(seed=seed)` reseeds the base. -/
def Sparse.seed {V S R : Type} (sp : Sparse V S R) (seed : Nat)
    (_st : SparseState S R) : SparseState S R :=
  { npRandom := sp.rng.seedFn seed, baseState := sp.base.seedFn seed }

/-- Embeds `Sparse.sample` (lines 36-45):
if `none_prob == 0` return `base.sample()`;
if `none_prob == 1` return `None` (before ever touching `np_random`);
otherwise draw `p = np_random.random()` and return `None` when
`p <= none_prob`, else `base.sample()`. -/
def Sparse.sample {V S R : Type} (sp : Sparse V S R) (st : SparseState S R) :
    Option V × SparseState S R :=
  if sp.none_prob = 0 then
    let vs := sp.base.sampleFn st.baseState
    (some vs.1, { st with baseState := vs.2 })
  else if sp.none_prob = 1 then
    (none, st)
  else
    let pr := sp.rng.nextFn st.npRandom
    if pr.1 ≤ sp.none_prob then
      (none, { st with npRandom := pr.2 })
    else
      let vs := sp.base.sampleFn st.baseState
      { fst := some vs.1, snd := { npRandom := pr.2, baseState := vs.2 } }

/-- Embeds `Sparse.contains` (lines 47-52): `x is None or base.contains(x)`. -/
def Sparse.contains {V S R : Type} (sp : Sparse V S R) (x : Option V) : Bool :=
  match x with
  | none => true
  | some v => sp.base.containsFn v

/-- Sequence of `k` successive `sample()` calls, threading the state. -/
def Sparse.sampleSeq {V S R : Type} (sp : Sparse V S R) (st : SparseState S R) :
    Nat → List (Option V)
  | 0 => []
  | k + 1 =>
    let vs := sp.sample st
    vs.1 :: sp.sampleSeq vs.2 k

/-- Claim C5: for every Sparse space, `contains(None)` is `True`; for
`x != None`, `contains(x)` equals `base.contains(x)`; hence the domain is
exactly `{None}` united with the base space's domain. -/
theorem sparse_contains_spec {V S R : Type} (sp : Sparse V S R) :
    sp.contains none = true
    ∧ (∀ v : V, sp.contains (some v) = sp.base.containsFn v)
    ∧ (∀ x : Option V, sp.contains x = true ↔
        x = none ∨ ∃ v, x = some v ∧ sp.base.containsFn v = true) := by
  refine ⟨rfl, fun v => rfl, fun x => ?_⟩
  cases x with
  | none => simp [Sparse.contains]
  | some v => simp [Sparse.contains]

/-- Claim C4: `Sparse(base, 0).sample()` never returns `None` and its result is
contained in the base space (using the base-space invariant that samples
satisfy `contains`); `Sparse(base, 1).sample()` always returns `None` and
leaves the entire random state (both the space's own `np_random` and the base
space's RNG) untouched. -/
theorem sparse_sample_extremes {V S R : Type} (sp : Sparse V S R)
    (st : SparseState S R)
    (hbase : ∀ s : S, sp.base.containsFn (sp.base.sampleFn s).1 = true) :
    (sp.none_prob = 0 →
      (sp.sample st).1 ≠ none
      ∧ (∃ v, (sp.sample st).1 = some v ∧ sp.base.containsFn v = true))
    ∧ (sp.none_prob = 1 → sp.sample st = (none, st)) := by
  constructor
  · intro h0
    simp only [Sparse.sample, h0, if_pos rfl]
    exact ⟨by simp, ⟨(sp.base.sampleFn st.baseState).1, rfl, hbase _⟩⟩
  · intro h1
    have hne : sp.none_prob ≠ 0 := by rw [h1]; norm_num
    simp [Sparse.sample, hne, h1]

/-- Example base space over natural numbers: the sampler returns the current
state and counts up, and every value is a member. -/
def exBase : BaseSpace Nat Nat :=
  { seedFn := fun n => n, sampleFn := fun s => (s, s + 1), containsFn := fun _ => true }

/-- Example RNG producing the constant rational 1/2. -/
def exRng : RngModel Nat :=
  { seedFn := fun n => n, nextFn := fun r => ((1 : ℚ) / 2, r + 1) }

/-- Example Sparse space with `none_prob = 0` over `exBase`. -/
def exSparse0 : Sparse Nat Nat Nat := { base := exBase, rng := exRng, none_prob := 0 }

/-- Example Sparse space with `none_prob = 1` over `exBase`. -/
def exSparse1 : Sparse Nat Nat Nat := { base := exBase, rng := exRng, none_prob := 1 }

/-- Example runtime state for the example Sparse spaces. -/
def exState : SparseState Nat Nat := { npRandom := 0, baseState := 5 }

/-- Witness for `sparse_sample_extremes` at a concrete instantiation: a base
space over natural numbers whose sampler counts up, with both extreme
`none_prob` values. -/
theorem sparse_sample_extremes_witness :
    (exSparse0.sample exState).1 ≠ none
    ∧ exSparse1.sample exState = (none, exState) := by
  refine ⟨((sparse_sample_extremes exSparse0 exState (fun _ => rfl)).1 rfl).1, ?_⟩
  exact (sparse_sample_extremes exSparse1 exState (fun _ => rfl)).2 rfl

/-- Claim C10: `Sparse.seed` reseeds both the space's own RNG (which decides
the None draws) and the base space's RNG, so after seeding with the same value,
two instances of the same (structurally equal) Sparse space produce identical
sequences of `None`/non-`None` outcomes and base values, whatever their random
states were before seeding. -/
theorem sparse_seed_deterministic {V S R : Type} (sp : Sparse V S R)
    (seed : Nat) (st₁ st₂ : SparseState S R) (k : Nat) :
    sp.sampleSeq (sp.seed seed st₁) k = sp.sampleSeq (sp.seed seed st₂) k := by
  have h : sp.seed seed st₁ = sp.seed seed st₂ := rfl
  rw [h]

/-! ## Space batching (`batch_sparse_space`, `common/spaces/sparse.py` lines
227-243)

Spaces are embedded as an inductive datatype covering the gym space kinds the
batching code manipulates.  `batch_space` on the base gym kinds follows
`gym.vector.utils.spaces.batch_space` at the level of structure and shape
(Discrete becomes a MultiDiscrete of `n` copies; Box gains a leading dimension
`n`; MultiDiscrete becomes a Box of shape `(n, len(nvec))`; Tuple batches
element-wise), and on `Sparse` follows the repository's registered
`batch_sparse_space` override. -/

/-- Gym spaces as manipulated by the batching code.  `box` carries only the
shape (bounds are irrelevant to the claims), `multiDiscrete` carries the
per-component cardinalities. -/
inductive GSpace where
  | discrete (m : Nat)
  | box (sh : List Nat)
  | multiDiscrete (nvec : List Nat)
  | tupleS (subs : List GSpace)
  | sparse (base : GSpace) (p : ℚ)

/-- Shape attribute of a space: gym `Discrete` has shape `()`, `Box` its shape,
`MultiDiscrete` shape `(len(nvec),)`, `Tuple` has no shape, and `Sparse`
inherits the base space's shape (`sparse.py` line 30 passes
`shape=self.base.shape`). -/
def GSpace.shapeOf : GSpace → Option (List Nat)
  | .discrete _ => some []
  | .box sh => some sh
  | .multiDiscrete nvec => some [nvec.length]
  | .tupleS _ => none
  | .sparse b _ => b.shapeOf

/-- Embeds `batch_space`: the gym handlers for Discrete/Box/MultiDiscrete/Tuple
plus the repository's `batch_sparse_space` handler for `Sparse` (lines
227-243): zero sparsity batches the base space and rewraps it in a trivially
sparse space, nonzero sparsity falls back to a Tuple of `n` copies. -/
def batch_space : GSpace → Nat → GSpace
  | .discrete m, n => .multiDiscrete (List.replicate n m)
  | .box sh, n => .box (n :: sh)
  | .multiDiscrete nvec, n => .box [n, nvec.length]
  | .tupleS subs, n => .tupleS (subs.attach.map (fun s => batch_space s.1 n))
  | .sparse b p, n =>
    if p = 0 then .sparse (batch_space b n) 0
    else .tupleS (List.replicate n (.sparse b p))
termination_by s _ => sizeOf s
decreasing_by
  · have h := List.sizeOf_lt_of_mem s.2
    simp at h ⊢ <;> omega
  · simp <;> omega

/-- Space kinds with an array representation (a numeric shape), for which
batching stacks along a new leading dimension. -/
def GSpace.isArrayKind : GSpace → Bool
  | .discrete _ => true
  | .box _ => true
  | .multiDiscrete _ => true
  | _ => false

/-- Batching an array-kind space yields a space whose shape has leading
dimension `n`. -/
theorem batch_space_leading_dim (b : GSpace) (n : Nat)
    (h : b.isArrayKind = true) :
    ∃ t, (batch_space b n).shapeOf = some (n :: t) := by
  cases b with
  | discrete m => exact ⟨[], by simp [batch_space, GSpace.shapeOf]⟩
  | box sh => exact ⟨sh, by simp [batch_space, GSpace.shapeOf]⟩
  | multiDiscrete nvec =>
    exact ⟨[nvec.length], by simp [batch_space, GSpace.shapeOf]⟩
  | tupleS subs => simp [GSpace.isArrayKind] at h
  | sparse base p => simp [GSpace.isArrayKind] at h

/-- Claim C3: for `n ≥ 1`, batching `Sparse(base, p)` with nonzero `p` returns
a fixed-length Tuple of `n` copies of the original Sparse space; with `p = 0`
it batches the base space (rewrapped in a `none_prob = 0` Sparse), giving a
batched form whose shape has leading dimension `n` for array-kind bases; and
`batch_space` is deterministic (immediate here because the embedding is a pure
function and equality of spaces is structural, matching `Sparse.__eq__` and
gym's structural space equality). -/
theorem batch_sparse_space_spec (b : GSpace) (p : ℚ) (n : Nat) (hn : 1 ≤ n) :
    (p ≠ 0 →
      batch_space (.sparse b p) n = .tupleS (List.replicate n (.sparse b p)))
    ∧ (p = 0 →
      batch_space (.sparse b p) n = .sparse (batch_space b n) 0
      ∧ (b.isArrayKind = true →
          ∃ t, (batch_space (.sparse b p) n).shapeOf = some (n :: t)))
    ∧ (∀ b' p' n', b = b' → p = p' → n = n' →
        batch_space (.sparse b p) n = batch_space (.sparse b' p') n') := by
  refine ⟨fun hp => by simp [batch_space, hp], fun hp => ⟨by simp [batch_space, hp], ?_⟩,
    fun b' p' n' hb hp hn' => by rw [hb, hp, hn']⟩
  intro harr
  obtain ⟨t, ht⟩ := batch_space_leading_dim b n harr
  exact ⟨t, by simp [batch_space, hp, GSpace.shapeOf, ht]⟩

/-- Witness for `batch_sparse_space_spec`: batching `Sparse(Discrete(3), 1/2)`
with `n = 2` gives a Tuple of two copies, and batching
`Sparse(Discrete(3), 0)` gives the trivially sparse batched base with leading
dimension 2. -/
theorem batch_sparse_space_spec_witness :
    batch_space (.sparse (.discrete 3) (1 / 2)) 2
      = .tupleS [.sparse (.discrete 3) (1 / 2), .sparse (.discrete 3) (1 / 2)]
    ∧ batch_space (.sparse (.discrete 3) 0) 2
      = .sparse (.multiDiscrete [3, 3]) 0 := by
  constructor
  · have h := (batch_sparse_space_spec (.discrete 3) (1 / 2) 2 (by norm_num)).1
      (by norm_num)
    rw [h]; rfl
  · have h := ((batch_sparse_space_spec (.discrete 3) 0 2 (by norm_num)).2.1 rfl).1
    rw [h]; simp [batch_space]

/-! ## Flatten/unflatten for Sparse (`flatdim_sparse`, `flatten_sparse`,
`unflatten_sparse`, `common/spaces/sparse.py` lines 119-138)

Spaces that participate in flattening are embedded as `FSpace`; samples as
`FVal`.  `flatten`/`unflatten`/`flatdim` follow `gym.spaces.utils` on the base
kinds (Discrete flattens to a one-hot array, Box to its flat value list, Tuple
to the concatenation, with `unflatten` splitting by `flatdim` the way
`np.split` does — the last sub-space receives the whole remainder) and the
repository's registered `*_sparse` overrides on `Sparse`: flattening `None`
yields the one-element object array `[None]`, and `unflatten` maps a
one-element array holding `None` back to `None` (lines 133-138). -/

/-- Spaces for the flatten/unflatten codec.  `box d` is a Box with `flatdim`
`d` (bounds are irrelevant to flattening). -/
inductive FSpace where
  | discrete (m : Nat)
  | box (d : Nat)
  | tupleS (subs : List FSpace)
  | sparse (base : FSpace) (p : ℚ)

/-- Samples: a Discrete sample is an integer, a Box sample a list of rationals
(floats), a Tuple sample a list of component samples, and `null` is Python's
`None`, the extra member every Sparse space admits. -/
inductive FVal where
  | int (i : Int)
  | arr (l : List ℚ)
  | tup (vs : List FVal)
  | null

/-- Custom induction principle for the nested inductive `FSpace`. -/
def FSpace.ind {P : FSpace → Prop}
    (hd : ∀ m, P (.discrete m)) (hb : ∀ d, P (.box d))
    (ht : ∀ subs, (∀ s ∈ subs, P s) → P (.tupleS subs))
    (hs : ∀ b p, P b → P (.sparse b p)) : ∀ s, P s
  | .discrete m => hd m
  | .box d => hb d
  | .tupleS subs => ht subs (fun t hmem => FSpace.ind hd hb ht hs t)
  | .sparse b p => hs b p (FSpace.ind hd hb ht hs b)
termination_by s => sizeOf s
decreasing_by
  · have h := List.sizeOf_lt_of_mem hmem
    simp at h ⊢ <;> omega
  · simp <;> omega

mutual
/-- Embeds `gym.spaces.utils.flatdim` with the repository's `flatdim_sparse`
override (lines 119-121): the flat dimension of a Sparse space is that of its
base. -/
def flatdim : FSpace → Nat
  | .discrete m => m
  | .box d => d
  | .tupleS subs => flatdimParts subs
  | .sparse b _ => flatdim b

/-- Sum of the flat dimensions of a Tuple space's components. -/
def flatdimParts : List FSpace → Nat
  | [] => 0
  | s :: ss => flatdim s + flatdimParts ss
end

/-- One-hot encoding used by gym to flatten a Discrete sample: a zero array
with a single 1 at the sampled index. -/
def onehot (m : Nat) (i : Int) : List (Option ℚ) :=
  (List.range m).map (fun (j : Nat) => if (j : Int) = i then some 1 else some 0)

mutual
/-- Embeds `gym.spaces.utils.flatten` with the repository's `flatten_sparse`
override (lines 123-125): `np.array([None])` when the sample is `None`, else
the flattening of the sample in the base space. -/
def flatten : FSpace → FVal → List (Option ℚ)
  | .discrete m, .int i => onehot m i
  | .box _, .arr l => l.map some
  | .tupleS subs, .tup vs => flattenParts subs vs
  | .sparse b _, v =>
    match v with
    | .null => [none]
    | v => flatten b v
  | _, _ => []

/-- Concatenation of component flattenings, as gym's Tuple `flatten` does with
`np.concatenate`. -/
def flattenParts : List FSpace → List FVal → List (Option ℚ)
  | s :: ss, v :: vs => flatten s v ++ flattenParts ss vs
  | _, _ => []
end

/-- Truthiness of one flat entry, as `np.nonzero` sees it: `None` and `0` are
falsy, any other number truthy. -/
def isNonzero : Option ℚ → Bool
  | none => false
  | some q => decide (q ≠ 0)

mutual
/-- Embeds `gym.spaces.utils.unflatten` with the repository's
`unflatten_sparse` override (lines 133-138): a one-element array whose single
element is `None` decodes to `None`; anything else is decoded by the base
space.  Discrete decodes a one-hot to the index of its first nonzero entry;
Tuple splits the flat array at the cumulative flat dimensions, `np.split`
style (the last component receives the remainder). -/
def unflatten : FSpace → List (Option ℚ) → FVal
  | .discrete _, l => .int (Int.ofNat (l.findIdx isNonzero))
  | .box _, l => .arr (l.map (fun o => o.getD 0))
  | .tupleS subs, l => .tup (unflattenParts subs l)
  | .sparse b _, l =>
    if l.length = 1 ∧ l.head? = some none then .null else unflatten b l

/-- Splitting of a flat array across a Tuple space's components. -/
def unflattenParts : List FSpace → List (Option ℚ) → List FVal
  | [], _ => []
  | [s], l => [unflatten s l]
  | s :: ss, l => unflatten s (l.take (flatdim s)) :: unflattenParts ss (l.drop (flatdim s))
end

mutual
/-- Membership in an `FSpace`, following each gym space's `contains` and the
repository's `Sparse.contains` (lines 47-52): `None` is a member of every
Sparse space, other values are tested in the base space. -/
def containsF : FSpace → FVal → Bool
  | .discrete m, .int i => decide (0 ≤ i) && decide (i < (m : Int))
  | .box d, .arr l => decide (l.length = d)
  | .tupleS subs, .tup vs => containsParts subs vs
  | .sparse b _, v =>
    match v with
    | .null => true
    | v => containsF b v
  | _, _ => false

/-- Pointwise membership of a Tuple sample. -/
def containsParts : List FSpace → List FVal → Bool
  | [], [] => true
  | s :: ss, v :: vs => containsF s v && containsParts ss vs
  | _, _ => false
end

mutual
/-- Spaces with no `Sparse` constructor anywhere inside (every standard gym
space is of this form; only `Sparse` introduces the `[None]` flat encoding). -/
def sparseFree : FSpace → Bool
  | .discrete _ => true
  | .box _ => true
  | .tupleS subs => sparseFreeParts subs
  | .sparse _ _ => false

/-- All components of a list of spaces are sparse-free. -/
def sparseFreeParts : List FSpace → Bool
  | [] => true
  | s :: ss => sparseFree s && sparseFreeParts ss
end

/-- Finding the first truthy entry of a range mapped through `f`, when exactly
the entries at index `k` are truthy. -/
theorem findIdx_range_map {α : Type} (p : α → Bool) :
    ∀ (m : Nat) (f : Nat → α) (k : Nat), k < m →
      (∀ j, p (f j) = decide (j = k)) →
      ((List.range m).map f).findIdx p = k := by
  intro m
  induction m with
  | zero => intro f k hk _; omega
  | succ n ih =>
    intro f k hk hp
    rw [List.range_succ_eq_map]
    simp only [List.map_cons, List.map_map]
    rw [List.findIdx_cons]
    cases k with
    | zero => simp [hp 0]
    | succ k' =>
      have h0 : p (f 0) = false := by rw [hp 0]; simp
      rw [h0]
      simp only [cond_false]
      have hrec := ih (f ∘ Nat.succ) k' (by omega)
        (fun j => by rw [Function.comp_apply, hp (j + 1)]; simp)
      simp only [Function.comp_def, Nat.succ_eq_add_one] at hrec ⊢
      omega

/-- Decoding a one-hot encoding recovers the encoded index. -/
theorem unflatten_onehot (m : Nat) (i : Int) (h0 : 0 ≤ i) (h1 : i < (m : Int)) :
    (onehot m i).findIdx isNonzero = i.toNat := by
  rw [onehot]
  apply findIdx_range_map isNonzero m _ i.toNat (by omega)
  intro j
  by_cases hj : (j : Int) = i
  · have : j = i.toNat := by omega
    simp [hj, this, isNonzero, h0]
  · have : ¬(j = i.toNat) := by omega
    simp [hj, this, isNonzero]

/-- Flattening a valid member of a sparse-free Tuple space produces an array
of the space's flat dimension (list version, given the member property for
every component space). -/
theorem flattenParts_length (ss : List FSpace)
    (ih : ∀ s ∈ ss, ∀ v, sparseFree s = true → containsF s v = true →
      (flatten s v).length = flatdim s) :
    ∀ ws, sparseFreeParts ss = true → containsParts ss ws = true →
      (flattenParts ss ws).length = flatdimParts ss := by
  induction ss with
  | nil =>
    intro ws _ hc
    cases ws with
    | nil => simp [flattenParts, flatdimParts]
    | cons w ws => simp [containsParts] at hc
  | cons s ss ihs =>
    intro ws hf hc
    cases ws with
    | nil => simp [containsParts] at hc
    | cons w ws =>
      rw [sparseFreeParts, Bool.and_eq_true] at hf
      rw [containsParts, Bool.and_eq_true] at hc
      have hs := ih s (by simp) w hf.1 hc.1
      have hss := ihs (fun t ht => ih t (by simp [ht])) ws hf.2 hc.2
      simp [flattenParts, flatdimParts, hs, hss]

/-- Flattening a valid member of a sparse-free space produces an array of the
space's flat dimension. -/
theorem flatten_length :
    ∀ s : FSpace, ∀ v, sparseFree s = true → containsF s v = true →
      (flatten s v).length = flatdim s := by
  refine FSpace.ind ?_ ?_ ?_ ?_
  · intro m v _ hc
    cases v with
    | int i => simp [flatten, flatdim, onehot]
    | arr l => simp [containsF] at hc
    | tup vs => simp [containsF] at hc
    | null => simp [containsF] at hc
  · intro d v _ hc
    cases v with
    | int i => simp [containsF] at hc
    | arr l =>
      rw [containsF, decide_eq_true_eq] at hc
      simp [flatten, flatdim, hc]
    | tup vs => simp [containsF] at hc
    | null => simp [containsF] at hc
  · intro subs ih v hf hc
    cases v with
    | int i => simp [containsF] at hc
    | arr l => simp [containsF] at hc
    | tup vs =>
      rw [sparseFree] at hf
      rw [containsF] at hc
      simp only [flatten, flatdim]
      exact flattenParts_length subs ih vs hf hc
    | null => simp [containsF] at hc
  · intro b p _ v hf
    simp [sparseFree] at hf

/-- No flat entry of a valid member of a sparse-free space is `None` (list
version). -/
theorem flattenParts_entries (ss : List FSpace)
    (ih : ∀ s ∈ ss, ∀ v, sparseFree s = true → containsF s v = true →
      ∀ o ∈ flatten s v, o ≠ none) :
    ∀ ws, sparseFreeParts ss = true → containsParts ss ws = true →
      ∀ o ∈ flattenParts ss ws, o ≠ none := by
  induction ss with
  | nil =>
    intro ws _ hc
    cases ws with
    | nil => simp [flattenParts]
    | cons w ws => simp [containsParts] at hc
  | cons s ss ihs =>
    intro ws hf hc
    cases ws with
    | nil => simp [containsParts] at hc
    | cons w ws =>
      rw [sparseFreeParts, Bool.and_eq_true] at hf
      rw [containsParts, Bool.and_eq_true] at hc
      intro o ho
      rw [flattenParts, List.mem_append] at ho
      cases ho with
      | inl h => exact ih s (by simp) w hf.1 hc.1 o h
      | inr h => exact ihs (fun t ht => ih t (by simp [ht])) ws hf.2 hc.2 o h

/-- No flat entry of a valid member of a sparse-free space is `None`: only the
`Sparse` override ever writes `None` into a flat array. -/
theorem flatten_entries :
    ∀ s : FSpace, ∀ v, sparseFree s = true → containsF s v = true →
      ∀ o ∈ flatten s v, o ≠ none := by
  refine FSpace.ind ?_ ?_ ?_ ?_
  · intro m v _ hc
    cases v with
    | int i =>
      intro o ho
      simp only [flatten, onehot, List.mem_map] at ho
      obtain ⟨j, _, hj⟩ := ho
      intro hnone
      rw [hnone] at hj
      by_cases h : (j : Int) = i <;> simp [h] at hj
    | arr l => simp [containsF] at hc
    | tup vs => simp [containsF] at hc
    | null => simp [containsF] at hc
  · intro d v _ hc
    cases v with
    | int i => simp [containsF] at hc
    | arr l => intro o ho; simp only [flatten, List.mem_map] at ho; obtain ⟨q, _, hq⟩ := ho; simp [← hq]
    | tup vs => simp [containsF] at hc
    | null => simp [containsF] at hc
  · intro subs ih v hf hc
    cases v with
    | int i => simp [containsF] at hc
    | arr l => simp [containsF] at hc
    | tup vs =>
      rw [sparseFree] at hf
      rw [containsF] at hc
      simp only [flatten]
      exact flattenParts_entries subs ih vs hf hc
    | null => simp [containsF] at hc
  · intro b p _ v hf
    simp [sparseFree] at hf

/-- Unflattening the flattening of a valid member of a sparse-free Tuple space
recovers the member (list version). -/
theorem unflattenParts_flattenParts (ss : List FSpace)
    (ih : ∀ s ∈ ss, ∀ v, sparseFree s = true → containsF s v = true →
      unflatten s (flatten s v) = v) :
    ∀ ws, sparseFreeParts ss = true → containsParts ss ws = true →
      unflattenParts ss (flattenParts ss ws) = ws := by
  induction ss with
  | nil =>
    intro ws _ hc
    cases ws with
    | nil => simp [flattenParts, unflattenParts]
    | cons w ws => simp [containsParts] at hc
  | cons s ss ihs =>
    intro ws hf hc
    cases ws with
    | nil => simp [containsParts] at hc
    | cons w ws =>
      rw [sparseFreeParts, Bool.and_eq_true] at hf
      rw [containsParts, Bool.and_eq_true] at hc
      cases ss with
      | nil =>
        cases ws with
        | nil =>
          have hflat : flattenParts [s] [w] = flatten s w := by
            simp [flattenParts]
          rw [hflat, unflattenParts, ih s (by simp) w hf.1 hc.1]
        | cons w₂ ws₂ => simp [containsParts] at hc
      | cons s₂ ss₂ =>
        have hlen : (flatten s w).length = flatdim s :=
          flatten_length s w hf.1 hc.1
        rw [flattenParts, unflattenParts,
          List.take_left' hlen, List.drop_left' hlen,
          ih s (by simp) w hf.1 hc.1,
          ihs (fun t ht => ih t (by simp [ht])) ws hf.2 hc.2]
        simp

/-- Unflattening the flattening of a valid member of a sparse-free space
recovers the member. -/
theorem unflatten_flatten :
    ∀ s : FSpace, ∀ v, sparseFree s = true → containsF s v = true →
      unflatten s (flatten s v) = v := by
  refine FSpace.ind ?_ ?_ ?_ ?_
  · intro m v _ hc
    cases v with
    | int i =>
      rw [containsF, Bool.and_eq_true, decide_eq_true_eq, decide_eq_true_eq] at hc
      simp only [flatten, unflatten]
      rw [unflatten_onehot m i hc.1 hc.2]
      simp [Int.toNat_of_nonneg hc.1]
    | arr l => simp [containsF] at hc
    | tup vs => simp [containsF] at hc
    | null => simp [containsF] at hc
  · intro d v _ hc
    cases v with
    | int i => simp [containsF] at hc
    | arr l =>
      simp only [flatten, unflatten, List.map_map]
      simp [Function.comp_def]
    | tup vs => simp [containsF] at hc
    | null => simp [containsF] at hc
  · intro subs ih v hf hc
    cases v with
    | int i => simp [containsF] at hc
    | arr l => simp [containsF] at hc
    | tup vs =>
      rw [sparseFree] at hf
      rw [containsF] at hc
      simp only [flatten, unflatten]
      rw [unflattenParts_flattenParts subs ih vs hf hc]
    | null => simp [containsF] at hc
  · intro b p _ v hf
    simp [sparseFree] at hf

/-- Flattening a non-`None` member of a Sparse space delegates to the base
space (`flatten_sparse`, line 125). -/
theorem flatten_sparse_ne_null (b : FSpace) (p : ℚ) (x : FVal) (hx : x ≠ .null) :
    flatten (.sparse b p) x = flatten b x := by
  cases x with
  | int i => simp [flatten]
  | arr l => simp [flatten]
  | tup vs => simp [flatten]
  | null => exact absurd rfl hx

/-- Membership of a non-`None` value in a Sparse space delegates to the base
space (`Sparse.contains`, line 52). -/
theorem containsF_sparse_ne_null (b : FSpace) (p : ℚ) (x : FVal)
    (hx : x ≠ .null) :
    containsF (.sparse b p) x = containsF b x := by
  cases x with
  | int i => simp [containsF]
  | arr l => simp [containsF]
  | tup vs => simp [containsF]
  | null => exact absurd rfl hx

/-- Claim C9 (amended): for a Sparse space over a sparse-free base (every
standard gym space: no nested `Sparse` sub-space), flatten/unflatten
round-trips on every member, including `None`; `None` is encoded as the
one-element object array `[None]` and exactly that encoding decodes back to
`None`.  The base's own round-trip holds outright for sparse-free bases
(`unflatten_flatten`), so it is not a hypothesis here.  The sparse-free
restriction is forced: `sparse_flatten_roundtrip_cex` shows the round-trip
fails over a base containing a Sparse sub-space even though the base itself
round-trips. -/
theorem sparse_flatten_roundtrip_amended (b : FSpace) (p : ℚ) (x : FVal)
    (hfree : sparseFree b = true) (hmem : containsF (.sparse b p) x = true) :
    unflatten (.sparse b p) (flatten (.sparse b p) x) = x
    ∧ flatten (.sparse b p) FVal.null = [none]
    ∧ unflatten (.sparse b p) [none] = FVal.null := by
  have henc : flatten (.sparse b p) FVal.null = [none] := by simp [flatten]
  have hdec : unflatten (.sparse b p) [none] = FVal.null := by simp [unflatten]
  refine ⟨?_, henc, hdec⟩
  by_cases hx : x = FVal.null
  · rw [hx, henc, hdec]
  · rw [containsF_sparse_ne_null b p x hx] at hmem
    have hcond :
        ¬((flatten b x).length = 1 ∧ (flatten b x).head? = some none) := by
      rintro ⟨_, hhead⟩
      exact flatten_entries b x hfree hmem none
        (List.mem_of_mem_head? (by rw [hhead]; rfl)) rfl
    rw [flatten_sparse_ne_null b p x hx, unflatten, if_neg hcond]
    exact unflatten_flatten b x hfree hmem

/-- Witness for `sparse_flatten_roundtrip_amended`: the member `1` of
`Sparse(Discrete(2), 1/2)` round-trips, and `None` is encoded/decoded as the
one-element `[None]` array. -/
theorem sparse_flatten_roundtrip_amended_witness :
    unflatten (.sparse (.discrete 2) (1 / 2))
        (flatten (.sparse (.discrete 2) (1 / 2)) (.int 1)) = .int 1
    ∧ flatten (.sparse (.discrete 2) (1 / 2)) FVal.null = [none]
    ∧ unflatten (.sparse (.discrete 2) (1 / 2)) [none] = FVal.null :=
  sparse_flatten_roundtrip_amended (.discrete 2) (1 / 2) (.int 1)
    (by simp [sparseFree]) (by norm_num [containsF])

/-- Base space of the round-trip counterexample: a Tuple whose single
component is itself a Sparse space (such Tuples of Sparse spaces arise in the
repository, e.g. from `batch_sparse_space`). -/
def cexBase : FSpace := .tupleS [.sparse (.discrete 2) (1 / 2)]

/-- Counterexample Sparse space: a Sparse space over `cexBase`. -/
def cexSpace : FSpace := .sparse cexBase (1 / 2)

/-- Counterexample member: the non-`None` tuple whose single component is
`None`; it flattens to `[None]`, colliding with the encoding of `None`
itself. -/
def cexVal : FVal := .tup [.null]

/-- Claim C9 as stated is false: `cexVal` is a member of `cexSpace`, the base
space's own flatten/unflatten round-trip holds at `cexVal` (the claim's
proviso), yet the Sparse round-trip returns `None` instead of `cexVal`,
because the flattening of `cexVal` collides with the `[None]` encoding. -/
theorem sparse_flatten_roundtrip_cex :
    containsF cexSpace cexVal = true
    ∧ unflatten cexBase (flatten cexBase cexVal) = cexVal
    ∧ unflatten cexSpace (flatten cexSpace cexVal) ≠ cexVal := by
  refine ⟨?_, ?_, ?_⟩
  · simp [cexSpace, cexVal, cexBase, containsF, containsParts]
  · simp [cexBase, cexVal, flatten, flattenParts, unflatten, unflattenParts]
  · simp [cexSpace, cexBase, cexVal, flatten, flattenParts, unflatten]

/-! ## Shared-memory codec for Sparse (`create_shared_memory_for_sparse_space`,
`write_to_shared_memory`, `read_from_shared_memory`,
`common/spaces/sparse.py` lines 155-223)

The shared buffer for a Sparse space is a dict holding a boolean `is_none`
array of length `n` plus a nested buffer for the base space (lines 164-167);
the base buffer is modelled as a flat array with one slot per environment. -/

/-- Shared-memory buffer: a flat base-space array (`ctx.Array`), or the dict
layout `{"is_none": ..., "value": ...}` allocated for a Sparse space. -/
inductive SharedMem (V : Type) where
  | arr (data : List V)
  | dict (is_none : List Bool) (value : SharedMem V)

/-- Python exceptions raised on the shared-memory paths: a failed `assert`,
or calling a non-callable (the module object) as a function. -/
inductive PyExn where
  | assertionError
  | typeError
deriving DecidableEq

/-- Embeds `write_to_shared_memory` (lines 170-192) exactly as written.  In
the `isinstance(space, Sparse)` branch the body runs
`assert isinstance(shared_memory, dict)` and then the leftover debugging
statements `assert False, index` and `assert False, is_none_array` (lines
180-181), so it raises `AssertionError` unconditionally before the actual
writes on lines 183-186 can execute.  In the other branch it evaluates
`gym.vector.utils.shared_memory(index, value, shared_memory, space)` —
a call on a module object, which raises `TypeError`. -/
def write_to_shared_memory {V : Type} (_index : Nat) (_value : Option V)
    (shared_memory : SharedMem V) (spaceIsSparse : Bool) :
    Except PyExn (SharedMem V) :=
  if spaceIsSparse then
    match shared_memory with
    | .dict _ _ => .error .assertionError
    | .arr _ => .error .assertionError
  else
    .error .typeError

/-- Embeds the `read_from_shared_memory` override for Sparse spaces (lines
199-223): list the `is_none` flags, assert both arrays have length `n`, read
the base values, and replace every flagged slot by `None`. -/
def read_from_shared_memory {V : Type} [Inhabited V]
    (shared_memory : SharedMem V) (n : Nat) : Except PyExn (List (Option V)) :=
  match shared_memory with
  | .dict is_none (.arr data) =>
    if is_none.length = n ∧ data.length = n then
      .ok ((List.range n).map (fun i =>
        if is_none.getD i false then none else some (data.getD i default)))
    else .error .assertionError
  | _ => .error .assertionError

/-- The write that lines 183-186 would perform were the two leftover
`assert False` statements (lines 180-181) removed: record whether the value
is `None` in the `is_none` flag array and, for non-`None` values, write into
the nested base buffer. -/
def write_without_debug_asserts {V : Type} (index : Nat) (value : Option V)
    (shared_memory : SharedMem V) : SharedMem V :=
  match shared_memory with
  | .dict is_none (.arr data) =>
    match value with
    | none => .dict (is_none.set index true) (.arr data)
    | some v => .dict (is_none.set index false) (.arr (data.set index v))
  | m => m

/-- Claim C2 (code evidence): every call of `write_to_shared_memory` on a
Sparse space raises `AssertionError` — the leftover `assert False, index` on
line 180 fires before anything is written, so the write/read round-trip the
spec describes can never complete.  The module's own docstring concedes the
shared-memory functions are buggy and bypassed (`shared_memory=False`). -/
theorem write_to_shared_memory_always_raises {V : Type} :
    ∀ (index : Nat) (value : Option V) (mem : SharedMem V),
      write_to_shared_memory index value mem true =
        Except.error PyExn.assertionError := by
  intro index value mem
  cases mem with
  | arr data => rfl
  | dict is_none value => rfl

/-- The write/read round-trip the spec describes does hold of the write the
debug asserts cut off: a concrete two-slot run writing a value and a `None`
and reading both back. -/
theorem write_read_without_debug_asserts_example :
    read_from_shared_memory
      (write_without_debug_asserts 1 none
        (write_without_debug_asserts 0 (some (3 / 2 : ℚ))
          (.dict [false, false] (.arr [0, 0])))) 2
      = .ok [some (3 / 2 : ℚ), none] := by
  simp [write_without_debug_asserts, read_from_shared_memory, List.range_succ]

/-! ## Tensor conversion (`common/gym_wrappers/convert_tensors.py`,
`sequoia/common/gym_wrappers/convert_tensors.py`,
`sequoia/utils/generic_functions/to_from_tensor.py`)

Runtime values are embedded as `Val`: numbers (ints/floats as rationals),
booleans, arrays/tuples, and torch Tensors wrapping an underlying value. -/

/-- Python runtime values crossing the wrapper boundary. -/
inductive Val where
  | num (q : ℚ)
  | boolV (b : Bool)
  | arrV (l : List Val)
  | tensor (v : Val)

/-- Whether a value is a torch Tensor. -/
def isTensor : Val → Bool
  | .tensor _ => true
  | _ => false

/-- Embeds `torch.as_tensor`: a Tensor is returned as is, any other value is
wrapped into a Tensor. -/
def as_tensor : Val → Val
  | .tensor w => .tensor w
  | w => .tensor w

/-- Embeds the generic `to_tensor` fallback (`to_from_tensor.py` lines 52-57):
`torch.as_tensor(sample)`. -/
def to_tensor (v : Val) : Val := as_tensor v

/-- Embeds the generic `from_tensor` fallback (`to_from_tensor.py` lines
11-16): a Tensor is converted back to its ndarray (`sample.cpu().numpy()`),
anything else is returned unchanged. -/
def from_tensor : Val → Val
  | .tensor w => w
  | w => w

/-- A value that is not a Tensor is unchanged by `from_tensor`. -/
theorem from_tensor_of_not_tensor (v : Val) (h : isTensor v = false) :
    from_tensor v = v := by
  cases v with
  | num q => rfl
  | boolV b => rfl
  | arrV l => rfl
  | tensor w => simp [isTensor] at h

/-- Unwrapping the wrapping of a non-Tensor value recovers the value. -/
theorem from_tensor_as_tensor (v : Val) (h : isTensor v = false) :
    from_tensor (as_tensor v) = v := by
  cases v with
  | num q => rfl
  | boolV b => rfl
  | arrV l => rfl
  | tensor w => simp [isTensor] at h

/-- Embeds `ConvertToFromTensors.step` of the common variant
(`common/gym_wrappers/convert_tensors.py` lines 46-62).  `contains₀` is the
pre-decoration `contains` of the wrapped env's action space and `stepFn` the
wrapped env's `step`.  The common variant's `add_tensor_support` decorates
the space object in place, and the wrapper aliases the wrapped env's space,
so the check `assert action in self.env.action_space` (line 48) runs the
decorated `contains`: `contains₀` of `from_tensor` of its argument.
Observation and reward are converted with `to_tensor`/`torch.as_tensor`
(lines 53-58); `done` is converted with `torch.as_tensor` (line 59); `info`
is passed through.  A failed assert raises `AssertionError`. -/
def step_common (contains₀ : Val → Bool) (stepFn : Val → Val × Val × Val × Val)
    (action : Val) : Except PyExn (Val × Val × Val × Val) :=
  let a := from_tensor action
  if contains₀ (from_tensor a) then
    let r := stepFn a
    .ok (to_tensor r.1, as_tensor r.2.1, as_tensor r.2.2.1, r.2.2.2)
  else
    .error .assertionError

/-- Embeds `ConvertToFromTensors.step` of the sequoia variant
(`sequoia/common/gym_wrappers/convert_tensors.py` lines 90-108).  There the
registered `add_tensor_support` handlers build fresh space objects, so
`self.env.action_space` keeps its original, un-decorated `contains`; the
`done` conversion is commented out (line 99) and `info` is passed through. -/
def step_sequoia (contains₀ : Val → Bool)
    (stepFn : Val → Val × Val × Val × Val) (action : Val) :
    Except PyExn (Val × Val × Val × Val) :=
  let a := from_tensor action
  if contains₀ a then
    let r := stepFn a
    .ok (to_tensor r.1, to_tensor r.2.1, r.2.2.1, r.2.2.2)
  else
    .error .assertionError

/-- Example wrapped environment: accepts every action and returns observation
`0`, reward `1`, done `True` and info `7`. -/
def exEnvStep : Val → Val × Val × Val × Val :=
  fun _ => (.num 0, .num 1, .boolV true, .num 7)

/-- Claim C6 is refuted on the common variant: stepping with a tensor action
in an env whose `step` reports `done = True` returns the done flag as the
Tensor wrapping of `True`, not the `True` the underlying env produced
(line 59 `done = torch.as_tensor(done, ...)`). -/
theorem convert_tensors_step_done_cex :
    step_common (fun _ => true) exEnvStep (.tensor (.num 0))
      = .ok (.tensor (.num 0), .tensor (.num 1), .tensor (.boolV true), .num 7)
    ∧ Val.tensor (.boolV true) ≠ .boolV true := by
  exact ⟨rfl, fun h => Val.noConfusion h⟩

/-- Claim C6 (amended): whenever the action check passes, both variants
return `info` exactly as produced by the underlying `step` and convert the
observation and the reward to tensors; the sequoia variant also returns
`done` exactly as produced, while the common variant converts `done` with
`torch.as_tensor`. -/
theorem convert_tensors_step_done_info (contains₀ : Val → Bool)
    (stepFn : Val → Val × Val × Val × Val) (action : Val)
    (hchk : contains₀ (from_tensor action) = true)
    (hnt : isTensor (from_tensor action) = false) :
    step_sequoia contains₀ stepFn action
      = .ok (to_tensor (stepFn (from_tensor action)).1,
          to_tensor (stepFn (from_tensor action)).2.1,
          (stepFn (from_tensor action)).2.2.1,
          (stepFn (from_tensor action)).2.2.2)
    ∧ step_common contains₀ stepFn action
      = .ok (to_tensor (stepFn (from_tensor action)).1,
          as_tensor (stepFn (from_tensor action)).2.1,
          as_tensor (stepFn (from_tensor action)).2.2.1,
          (stepFn (from_tensor action)).2.2.2) := by
  have hff : from_tensor (from_tensor action) = from_tensor action :=
    from_tensor_of_not_tensor _ hnt
  constructor
  · simp only [step_sequoia, hchk, if_pos]
  · simp only [step_common, hff, hchk, if_pos]

/-- Witness for `convert_tensors_step_done_info` at the example environment
with the tensor action wrapping `0`. -/
theorem convert_tensors_step_done_info_witness :
    step_sequoia (fun v => v matches .num _) exEnvStep (.tensor (.num 0))
      = .ok (.tensor (.num 0), .tensor (.num 1), .boolV true, .num 7)
    ∧ step_common (fun v => v matches .num _) exEnvStep (.tensor (.num 0))
      = .ok (.tensor (.num 0), .tensor (.num 1), .tensor (.boolV true), .num 7) :=
  convert_tensors_step_done_info (fun v => v matches .num _) exEnvStep
    (.tensor (.num 0)) rfl rfl

/-- Claim C8: `step` first converts the incoming tensor action back with
`from_tensor` and validates it before stepping: when the membership check
fails the env is never stepped and an `AssertionError` is raised, and when it
passes the underlying env is stepped with the converted action.  For
non-double-wrapped actions the check the common variant executes (through the
in-place-decorated, aliased space object) coincides with membership of the
converted action in the un-decorated action space, which the sequoia variant
tests directly.  The failure branch is unreachable for actions sampled from
the decorated action space (`to_tensor` of a base-space sample, base samples
being non-Tensor members of the base space). -/
theorem convert_tensors_step_validates_action (contains₀ : Val → Bool)
    (stepFn : Val → Val × Val × Val × Val) (action : Val) :
    (isTensor (from_tensor action) = false →
      (contains₀ (from_tensor action) = false →
        step_common contains₀ stepFn action = .error .assertionError
        ∧ step_sequoia contains₀ stepFn action = .error .assertionError)
      ∧ (contains₀ (from_tensor action) = true →
        step_common contains₀ stepFn action
          = .ok (to_tensor (stepFn (from_tensor action)).1,
              as_tensor (stepFn (from_tensor action)).2.1,
              as_tensor (stepFn (from_tensor action)).2.2.1,
              (stepFn (from_tensor action)).2.2.2)))
    ∧ (∀ x : Val, contains₀ x = true → isTensor x = false →
        ∃ r, step_common contains₀ stepFn (to_tensor x) = .ok r) := by
  constructor
  · intro hnt
    have hff : from_tensor (from_tensor action) = from_tensor action :=
      from_tensor_of_not_tensor _ hnt
    constructor
    · intro hfail
      constructor
      · simp only [step_common, hff, hfail]
        rfl
      · simp only [step_sequoia, hfail]
        rfl
    · intro hpass
      simp only [step_common, hff, hpass, if_pos]
  · intro x hx hxt
    have h1 : from_tensor (to_tensor x) = x := from_tensor_as_tensor x hxt
    refine ⟨(to_tensor (stepFn x).1, as_tensor (stepFn x).2.1,
      as_tensor (stepFn x).2.2.1, (stepFn x).2.2.2), ?_⟩
    simp only [step_common, h1, from_tensor_of_not_tensor x hxt, hx, if_pos]

/-- Witness for `convert_tensors_step_validates_action`: with an action space
accepting only numbers, a tensor-wrapped boolean action is rejected without
stepping, a tensor-wrapped number steps the env, and the sampled-action
branch is exercised at the sample `0`. -/
theorem convert_tensors_step_validates_action_witness :
    step_common (fun v => v matches .num _) exEnvStep (.tensor (.boolV true))
      = .error .assertionError
    ∧ step_common (fun v => v matches .num _) exEnvStep (.tensor (.num 2))
      = .ok (.tensor (.num 0), .tensor (.num 1), .tensor (.boolV true), .num 7)
    ∧ ∃ r, step_common (fun v => v matches .num _) exEnvStep
        (to_tensor (.num 0)) = .ok r := by
  refine ⟨?_, ?_, ?_⟩
  · exact (((convert_tensors_step_validates_action (fun v => v matches .num _)
      exEnvStep (.tensor (.boolV true))).1 rfl).1 rfl).1
  · exact ((convert_tensors_step_validates_action (fun v => v matches .num _)
      exEnvStep (.tensor (.num 2))).1 rfl).2 rfl
  · exact (convert_tensors_step_validates_action (fun v => v matches .num _)
      exEnvStep (.num 0)).2 (.num 0) rfl rfl

/-! ## add_tensor_support (common variant `convert_tensors.py` lines 65-111;
sequoia variant lines 111-244)

Python mutates space objects in place in the common variant, so a space
object is modelled with an explicit object identity `oid`: an in-place update
keeps the `oid`, constructing a new object allocates a fresh one.  The
`__supports_tensors` marker defaults to `false` (`getattr(space,
"__supports_tensors", False)`). -/

/-- Runtime state of a gym space object under the common variant: object
identity, marker attribute, current `sample` and `contains` methods, whether
the space is a composite (`Tuple`/`Dict`), its sub-space objects, and whether
the decorating `__getitem__` of lines 104-109 has been installed. -/
inductive CSpace where
  | mk (oid : Nat) (marker : Bool) (sampleFn : Unit → Val)
      (containsFn : Val → Bool) (isComposite : Bool) (subs : List CSpace)
      (getitemWraps : Bool)

/-- Object identity of a space object. -/
def CSpace.oid : CSpace → Nat
  | .mk o _ _ _ _ _ _ => o

/-- The `__supports_tensors` marker attribute. -/
def CSpace.marker : CSpace → Bool
  | .mk _ m _ _ _ _ _ => m

/-- The sub-space objects of a composite space. -/
def CSpace.subs : CSpace → List CSpace
  | .mk _ _ _ _ _ ss _ => ss

/-- The current `contains` method of a space object. -/
def CSpace.containsFn : CSpace → Val → Bool
  | .mk _ _ _ cf _ _ _ => cf

/-- Embeds the common variant's `add_tensor_support` (lines 73-111): if the
marker is set, return the space unchanged; otherwise set the marker, replace
`sample` by a tensor-producing wrapper and `contains` by a tensor-accepting
wrapper (both in place: same object), and for `Tuple`/`Dict` spaces install a
`__getitem__` that would decorate a sub-space on access — the sub-space
objects themselves are left untouched. -/
def add_tensor_support (s : CSpace) : CSpace :=
  match s with
  | .mk oid marker sampleFn containsFn comp subs gw =>
    if marker then .mk oid marker sampleFn containsFn comp subs gw
    else
      .mk oid true (fun u => to_tensor (sampleFn u))
        (fun x => containsFn (from_tensor x)) comp subs comp

/-- Space objects under the sequoia variant, tagged by the dispatch class of
its registered `add_tensor_support` handlers: `Box`, `Discrete` (for which a
handler builds a fresh `TensorBox`/`TensorDiscrete`), `Tuple` (fresh tuple of
recursively decorated sub-spaces), or a space type with no registered
handler, served by the in-place generic fallback. -/
inductive QSpace where
  | qbox (oid : Nat) (marker : Bool)
  | qdiscrete (oid : Nat) (marker : Bool)
  | qtuple (oid : Nat) (marker : Bool) (subs : List QSpace)
  | qgeneric (oid : Nat) (marker : Bool)

/-- Object identity of a sequoia space object. -/
def QSpace.oidQ : QSpace → Nat
  | .qbox o _ => o
  | .qdiscrete o _ => o
  | .qtuple o _ _ => o
  | .qgeneric o _ => o

mutual
/-- Embeds the sequoia variant's `add_tensor_support` (lines 125-244), with
an explicit fresh-oid counter for allocating new objects.  The `Box` and
`Discrete` handlers (lines 224-237) construct fresh `TensorBox` and
`TensorDiscrete` objects, marked, without consulting the marker; the `Tuple`
handler (lines 208-214) constructs a fresh tuple of recursively decorated
sub-spaces; only the generic fallback (lines 125-158) is an in-place,
marker-guarded no-op wrap. -/
def add_tensor_support_seq : QSpace → Nat → QSpace × Nat
  | .qbox _ _, c => (.qbox c true, c + 1)
  | .qdiscrete _ _, c => (.qdiscrete c true, c + 1)
  | .qtuple _ _ subs, c =>
    let r := add_tensor_support_seq_list subs c
    (.qtuple r.2 true r.1, r.2 + 1)
  | .qgeneric oid marker, c =>
    if marker then (.qgeneric oid marker, c) else (.qgeneric oid true, c)

/-- Decoration of each sub-space of a Tuple space in order, threading the
fresh-oid counter. -/
def add_tensor_support_seq_list : List QSpace → Nat → List QSpace × Nat
  | [], c => ([], c)
  | s :: ss, c =>
    let r := add_tensor_support_seq s c
    let rs := add_tensor_support_seq_list ss r.2
    (r.1 :: rs.1, rs.2)
end

mutual
/-- A sequoia space object and, recursively, all of its sub-spaces carry the
marker. -/
def qMarked : QSpace → Bool
  | .qbox _ m => m
  | .qdiscrete _ m => m
  | .qtuple _ m subs => m && qMarkedList subs
  | .qgeneric _ m => m

/-- All spaces of a list are recursively marked. -/
def qMarkedList : List QSpace → Bool
  | [] => true
  | s :: ss => qMarked s && qMarkedList ss
end

/-- Custom induction principle for the nested inductive `QSpace`. -/
def QSpace.ind {P : QSpace → Prop}
    (hb : ∀ o m, P (.qbox o m)) (hd : ∀ o m, P (.qdiscrete o m))
    (ht : ∀ o m subs, (∀ s ∈ subs, P s) → P (.qtuple o m subs))
    (hg : ∀ o m, P (.qgeneric o m)) : ∀ s, P s
  | .qbox o m => hb o m
  | .qdiscrete o m => hd o m
  | .qtuple o m subs => ht o m subs (fun t hmem => QSpace.ind hb hd ht hg t)
  | .qgeneric o m => hg o m
termination_by s => sizeOf s
decreasing_by
  · have h := List.sizeOf_lt_of_mem hmem
    simp at h ⊢ <;> omega

/-- After the sequoia `add_tensor_support`, every space of a list is
recursively marked (list version, given the property for its members). -/
theorem add_tensor_support_seq_list_marked (ss : List QSpace)
    (ih : ∀ s ∈ ss, ∀ c, qMarked (add_tensor_support_seq s c).1 = true) :
    ∀ c, qMarkedList (add_tensor_support_seq_list ss c).1 = true := by
  induction ss with
  | nil => intro c; simp [add_tensor_support_seq_list, qMarkedList]
  | cons s ss ihs =>
    intro c
    rw [add_tensor_support_seq_list]
    rw [qMarkedList, Bool.and_eq_true]
    exact ⟨ih s (by simp) c, ihs (fun t ht => ih t (by simp [ht])) _⟩

/-- After the sequoia `add_tensor_support`, the returned space and all its
sub-spaces are marked: the decoration is applied recursively. -/
theorem add_tensor_support_seq_marked :
    ∀ q : QSpace, ∀ c : Nat, qMarked (add_tensor_support_seq q c).1 = true := by
  refine QSpace.ind ?_ ?_ ?_ ?_
  · intro o m c; rw [add_tensor_support_seq]; rfl
  · intro o m c; rw [add_tensor_support_seq]; rfl
  · intro o m subs ih c
    rw [add_tensor_support_seq]
    rw [qMarked, Bool.and_eq_true]
    exact ⟨rfl, add_tensor_support_seq_list_marked subs ih c⟩
  · intro o m c
    rw [add_tensor_support_seq]
    cases m with
    | false => rfl
    | true => rfl

/-- Claim C7 (amended): the common variant's `add_tensor_support` is
idempotent (the second call is a no-op detected via the marker) and decorates
in place — same object identity, marker set, but the sub-space objects of a
composite space are left untouched rather than recursively decorated (only a
lazy `__getitem__` is installed); the sequoia variant decorates recursively —
after it, the space and all its sub-spaces are marked — but its registered
handlers (e.g. `Box`) return a newly constructed space object (fresh
identity), not the space it was given. -/
theorem add_tensor_support_amended :
    (∀ s : CSpace, add_tensor_support (add_tensor_support s) = add_tensor_support s)
    ∧ (∀ s : CSpace, (add_tensor_support s).oid = s.oid)
    ∧ (∀ s : CSpace, (add_tensor_support s).marker = true)
    ∧ (∀ s : CSpace, (add_tensor_support s).subs = s.subs)
    ∧ (∀ q : QSpace, ∀ c : Nat, qMarked (add_tensor_support_seq q c).1 = true)
    ∧ (∀ o : Nat, ∀ m : Bool, ∀ c : Nat, c ≠ o →
        (add_tensor_support_seq (.qbox o m) c).1 = .qbox c true
        ∧ (add_tensor_support_seq (.qbox o m) c).1.oidQ ≠ o) := by
  refine ⟨?_, ?_, ?_, ?_, add_tensor_support_seq_marked, ?_⟩
  · intro s
    cases s with
    | mk o m sf cf comp subs gw =>
      cases m with
      | false => rfl
      | true => rfl
  · intro s
    cases s with
    | mk o m sf cf comp subs gw =>
      cases m with
      | false => rfl
      | true => rfl
  · intro s
    cases s with
    | mk o m sf cf comp subs gw =>
      cases m with
      | false => rfl
      | true => rfl
  · intro s
    cases s with
    | mk o m sf cf comp subs gw =>
      cases m with
      | false => rfl
      | true => rfl
  · intro o m c hc
    constructor
    · rw [add_tensor_support_seq]
    · rw [add_tensor_support_seq]
      exact fun h => hc h

/-- Witness for `add_tensor_support_amended` at concrete spaces: a
single-sub-space composite for the common variant and a `Box` with a fresh
counter distinct from its identity for the sequoia variant. -/
theorem add_tensor_support_amended_witness :
    (add_tensor_support_seq (.qbox 3 false) 7).1 = .qbox 7 true
    ∧ (add_tensor_support_seq (.qbox 3 false) 7).1.oidQ ≠ 3 :=
  add_tensor_support_amended.2.2.2.2.2 3 false 7 (by omega)

/-- Sub-space of the counterexample composite space: undecorated (marker
`false`). -/
def exSub : CSpace :=
  .mk 1 false (fun _ => .num 0) (fun _ => true) false [] false

/-- Counterexample composite space for the common variant: a Tuple-like space
holding `exSub`. -/
def exComposite : CSpace :=
  .mk 0 false (fun _ => .num 0) (fun _ => true) true [exSub] false

/-- Claim C7 as stated is false on the common variant: after
`add_tensor_support`, the sub-space object of the composite space is entirely
unchanged — in particular its marker attribute is still unset, so the
decoration was not applied recursively to every sub-space. -/
theorem add_tensor_support_cex :
    (add_tensor_support exComposite).subs = [exSub]
    ∧ exSub.marker = false := by
  exact ⟨rfl, rfl⟩

/-! ## Batched environment controller reset (spec-modelled)

The `BatchEnv` controller implementation is not part of the source tree —
only its test file `common/gym_wrappers/batch_env/batch_env_test.py` is — so
the controller's `reset` path is modelled from the spec: each worker owns a
consecutive shard of the environment list together with the matching slice of
the shared buffer, writes each environment's reset observation into that
environment's own slot, and, once every worker has acknowledged, the
controller reads the whole buffer back in slot order (spec sections 4.3, 4.4
and 5).  Asynchrony is captured by letting the workers' slot writes land in
an arbitrary interleaving (any permutation of the set of writes). -/

/-- Modelled from the spec: a deterministic sub-environment as a worker sees
it — a zero-argument `reset` producing the initial observation. -/
structure WorkerEnv (Obs : Type) where
  resetFn : Unit → Obs

/-- Modelled from the spec: the slot writes one worker performs on `reset`
for the shard it owns, starting at its slice's offset — the `k`-th
environment of the shard is written to slot `offset + k`. -/
def workerResetWrites {Obs : Type} : Nat → List (WorkerEnv Obs) → List (Nat × Obs)
  | _, [] => []
  | offset, e :: rest => (offset, e.resetFn ()) :: workerResetWrites (offset + 1) rest

/-- Modelled from the spec: the combined writes of all workers, each owning
the next consecutive shard of the environment list and the matching slice of
the shared buffer. -/
def shardResetWrites {Obs : Type} : Nat → List (List (WorkerEnv Obs)) → List (Nat × Obs)
  | _, [] => []
  | offset, shard :: rest =>
    workerResetWrites offset shard ++ shardResetWrites (offset + shard.length) rest

/-- Modelled from the spec: the shared buffer (one slot per environment,
initially unwritten) after the workers' writes have landed in some order. -/
def applyWrites {Obs : Type} (writes : List (Nat × Obs)) (n : Nat) :
    List (Option Obs) :=
  writes.foldl (fun buf kv => buf.set kv.1 (some kv.2)) (List.replicate n none)

/-- Modelled from the spec: the batched observation `reset()` returns — the
controller reads all `n` buffer slots back in slot order after every worker
has acknowledged. -/
def controller_reset {Obs : Type} (writes : List (Nat × Obs)) (n : Nat) :
    List (Option Obs) :=
  applyWrites writes n

/-- A fold of slot writes leaves a slot no write targets unchanged. -/
theorem foldl_set_not_mem {Obs : Type} (ws : List (Nat × Obs)) :
    ∀ (buf : List (Option Obs)) (i : Nat), i ∉ ws.map Prod.fst →
      (ws.foldl (fun b kv => b.set kv.1 (some kv.2)) buf)[i]? = buf[i]? := by
  induction ws with
  | nil => intro buf i _; rfl
  | cons kv ws ih =>
    intro buf i hmem
    rw [List.map_cons, List.mem_cons] at hmem
    push_neg at hmem
    rw [List.foldl_cons, ih _ i hmem.2]
    exact List.getElem?_set_ne (fun h => hmem.1 h.symm)

/-- A fold of slot writes with pairwise distinct slots stores each written
value at its slot. -/
theorem foldl_set_mem {Obs : Type} (ws : List (Nat × Obs)) :
    ∀ (buf : List (Option Obs)) (i : Nat) (v : Obs), (i, v) ∈ ws →
      (ws.map Prod.fst).Nodup → i < buf.length →
      (ws.foldl (fun b kv => b.set kv.1 (some kv.2)) buf)[i]? = some (some v) := by
  induction ws with
  | nil => intro buf i v hmem _ _; simp at hmem
  | cons kv ws ih =>
    intro buf i v hmem hnd hlen
    rw [List.map_cons, List.nodup_cons] at hnd
    rw [List.foldl_cons]
    rcases List.mem_cons.mp hmem with heq | htail
    · have hkey : kv.1 = i := by rw [← heq]
      have hnot : i ∉ ws.map Prod.fst := hkey ▸ hnd.1
      rw [foldl_set_not_mem ws _ i hnot, hkey]
      have hval : kv.2 = v := by rw [← heq]
      rw [hval]
      exact List.getElem?_set_self hlen
    · exact ih _ i v htail hnd.2 (by simpa using hlen)

/-- Distributing one worker's writes over an appended shard. -/
theorem workerResetWrites_append {Obs : Type} (a b : List (WorkerEnv Obs)) :
    ∀ offset, workerResetWrites offset (a ++ b) =
      workerResetWrites offset a ++ workerResetWrites (offset + a.length) b := by
  induction a with
  | nil => intro offset; simp [workerResetWrites]
  | cons e rest ih =>
    intro offset
    rw [List.cons_append, workerResetWrites, workerResetWrites, ih (offset + 1),
      List.cons_append, List.length_cons]
    ring_nf

/-- Sharding does not change the combined set of slot writes: the writes of
consecutively sharded workers are exactly the writes of one worker owning the
whole joined list. -/
theorem shardResetWrites_eq_join {Obs : Type}
    (shards : List (List (WorkerEnv Obs))) :
    ∀ offset, shardResetWrites offset shards =
      workerResetWrites offset shards.join := by
  induction shards with
  | nil => intro offset; simp [shardResetWrites, workerResetWrites]
  | cons shard rest ih =>
    intro offset
    rw [shardResetWrites]
    have hj : (shard :: rest).join = shard ++ rest.join := rfl
    rw [hj, workerResetWrites_append, ih]

/-- The slots one worker writes are the consecutive range starting at its
offset. -/
theorem workerResetWrites_keys {Obs : Type} (l : List (WorkerEnv Obs)) :
    ∀ offset, (workerResetWrites offset l).map Prod.fst =
      List.range' offset l.length := by
  induction l with
  | nil => intro offset; rfl
  | cons e rest ih =>
    intro offset
    rw [workerResetWrites, List.map_cons, ih (offset + 1), List.length_cons]
    rfl

/-- Environment `i` of a worker's shard is written to slot `offset + i` with
its own reset observation. -/
theorem workerResetWrites_mem {Obs : Type} (l : List (WorkerEnv Obs)) :
    ∀ offset (i : Nat) (hi : i < l.length),
      (offset + i, (l.get ⟨i, hi⟩).resetFn ()) ∈ workerResetWrites offset l := by
  induction l with
  | nil => intro _ i hi; simp at hi
  | cons e rest ih =>
    intro offset i hi
    cases i with
    | zero => rw [workerResetWrites]; simp [List.get]
    | succ j =>
      rw [workerResetWrites]
      have hj : j < rest.length := by simpa using hi
      have := ih (offset + 1) j hj
      refine List.mem_cons_of_mem _ ?_
      have harith : offset + 1 + j = offset + (j + 1) := by omega
      rw [← harith]
      simpa using this

/-- Claim C1 (spec-modelled): for every list of environments, every
consecutive sharding of it across workers, and every interleaving (a
permutation) of the workers' shared-buffer writes, the batched observation
`reset()` returns has, in its `i`-th lane, exactly the observation produced
by environment `i`'s own `reset()` — lane order matches the input order
regardless of sharding and write interleaving. -/
theorem batch_env_reset_order_preserved {Obs : Type}
    (envs : List (WorkerEnv Obs)) (shards : List (List (WorkerEnv Obs)))
    (order : List (Nat × Obs))
    (hshard : shards.join = envs)
    (hperm : order.Perm (shardResetWrites 0 shards))
    (i : Nat) (hi : i < envs.length) :
    (controller_reset order envs.length)[i]? =
      some (some ((envs.get ⟨i, hi⟩).resetFn ())) := by
  have hweq : shardResetWrites 0 shards = workerResetWrites 0 envs := by
    rw [shardResetWrites_eq_join, hshard]
  have hkeys : (order.map Prod.fst).Nodup := by
    have hp : (order.map Prod.fst).Perm ((workerResetWrites 0 envs).map Prod.fst) :=
      (hperm.map Prod.fst).trans (by rw [hweq])
    have hnd : ((workerResetWrites 0 envs).map Prod.fst).Nodup := by
      rw [workerResetWrites_keys]
      exact List.nodup_range' _ _
    exact hp.nodup_iff.mpr hnd
  have hmem : (i, (envs.get ⟨i, hi⟩).resetFn ()) ∈ order := by
    have h0 := workerResetWrites_mem envs 0 i hi
    rw [Nat.zero_add] at h0
    exact hperm.mem_iff.mpr (by rw [hweq]; exact h0)
  have hlen : i < (List.replicate envs.length (none : Option Obs)).length := by
    simpa using hi
  exact foldl_set_mem order _ i _ hmem hkeys hlen

/-- Example environments for the reset-order witness: environment `i` resets
to observation `i`. -/
def exEnvs : List (WorkerEnv Nat) :=
  [⟨fun _ => 0⟩, ⟨fun _ => 1⟩, ⟨fun _ => 2⟩]

/-- Witness for `batch_env_reset_order_preserved`: three distinguishable
environments sharded over two workers, with the workers' writes landing in
reverse order, still reset to the batch `[0, 1, 2]`. -/
theorem batch_env_reset_order_preserved_witness :
    (controller_reset ((shardResetWrites 0 [[⟨fun _ => 0⟩, ⟨fun _ => 1⟩], [⟨fun _ => 2⟩]]).reverse) 3)[0]?
      = some (some 0)
    ∧ (controller_reset ((shardResetWrites 0 [[⟨fun _ => 0⟩, ⟨fun _ => 1⟩], [⟨fun _ => 2⟩]]).reverse) 3)[1]?
      = some (some 1)
    ∧ (controller_reset ((shardResetWrites 0 [[⟨fun _ => 0⟩, ⟨fun _ => 1⟩], [⟨fun _ => 2⟩]]).reverse) 3)[2]?
      = some (some 2) := by
  refine ⟨?_, ?_, ?_⟩
  · exact batch_env_reset_order_preserved exEnvs
      [[⟨fun _ => 0⟩, ⟨fun _ => 1⟩], [⟨fun _ => 2⟩]] _ rfl (List.reverse_perm _) 0 (by simp [exEnvs])
  · exact batch_env_reset_order_preserved exEnvs
      [[⟨fun _ => 0⟩, ⟨fun _ => 1⟩], [⟨fun _ => 2⟩]] _ rfl (List.reverse_perm _) 1 (by simp [exEnvs])
  · exact batch_env_reset_order_preserved exEnvs
      [[⟨fun _ => 0⟩, ⟨fun _ => 1⟩], [⟨fun _ => 2⟩]] _ rfl (List.reverse_perm _) 2 (by simp [exEnvs])

end SSCL
